import Mathlib

/-!
Shallow embedding of the core of `filter.py` (WCA Rankings Filterer):
the result/rank/event formatters, the dataset joiner `merge_data`, and the
rank query `get_person_by_rank`, together with proofs of the specified
properties. Python integers are embedded as `Int` (with Python's
floor-division `divmod` embedded as `Int.ediv`/`Int.emod`, which agree with
Python for the positive divisors used here), pandas float rank columns as
`ℚ`, and Python strings as `String`/`List Char`.
-/

/-- Decimal digit characters, the alphabet of the embedded integer renderer. -/
def digitChar : Nat → Char
  | 0 => '0' | 1 => '1' | 2 => '2' | 3 => '3' | 4 => '4'
  | 5 => '5' | 6 => '6' | 7 => '7' | 8 => '8' | 9 => '9'
  | _ => '*'

/-- Numeric value of a decimal digit character. -/
def charVal (c : Char) : Nat := c.toNat - 48

/-- Whether a character is one of '0'..'9'. -/
def isDigitChar (c : Char) : Bool := 48 ≤ c.toNat && c.toNat ≤ 57

/-- Fuel-driven decimal renderer; the result is independent of the fuel as
long as the fuel is at least the number being rendered. -/
def natToDigitsAux : Nat → Nat → List Char
  | 0, n => [digitChar n]
  | fuel + 1, n =>
    if n < 10 then [digitChar n]
    else natToDigitsAux fuel (n / 10) ++ [digitChar (n % 10)]

/-- Decimal digit string of a natural number, most significant first:
the embedding of Python `str` on a non-negative int. -/
def natToDigits (n : Nat) : List Char := natToDigitsAux n n

/-- Embedding of Python `str`/`f"{i}"` on an int (sign then digits). -/
def intToChars (i : Int) : List Char :=
  if i < 0 then '-' :: natToDigits i.natAbs else natToDigits i.toNat

/-- `intToChars` packaged as a `String`. -/
def intToString (i : Int) : String := ⟨intToChars i⟩

/-- Left-pad a character list with '0' up to width `w`. -/
def leftPad (w : Nat) (l : List Char) : List Char :=
  List.replicate (w - l.length) '0' ++ l

/-- Embedding of the Python f-string directive printing an int zero-padded to
width 2 (the sign, when present, counts toward the width). -/
def pad02Int (i : Int) : List Char :=
  if i < 0 then '-' :: leftPad 1 (natToDigits i.natAbs) else leftPad 2 (natToDigits i.toNat)

/-- Embedding of the Python f-string directive printing an int zero-padded to
width 8 (the sign, when present, counts toward the width). -/
def pad08Int (i : Int) : List Char :=
  if i < 0 then '-' :: leftPad 7 (natToDigits i.natAbs) else leftPad 8 (natToDigits i.toNat)

/-- Embedding of `format_time` (filter.py lines 86-90): split centiseconds by
`divmod` into minutes, seconds and centisecond fraction and render them,
omitting the minutes field when it is zero. -/
def format_time (centiseconds : Int) : String :=
  let minutes := centiseconds / 6000
  let rem := centiseconds % 6000
  let seconds := rem / 100
  let fractional := rem % 100
  if 0 < minutes then
    ⟨intToChars minutes ++ ':' :: (pad02Int seconds ++ '.' :: pad02Int fractional)⟩
  else
    ⟨intToChars seconds ++ '.' :: pad02Int fractional⟩

/-- Truncation of a rational toward zero: the embedding of Python `int()`
on a float (`Int.div` rounds toward zero, and the denominator is
positive). -/
def ratTrunc (q : ℚ) : Int := q.num.tdiv q.den

/-- Embedding of `format_rank` (filter.py lines 74-83): truncate to an
integer and append an ordinal suffix chosen by equality with 1, 2, 3. -/
def format_rank (rank : ℚ) : String :=
  let r := ratTrunc rank
  if r = 1 then intToString r ++ "st"
  else if r = 2 then intToString r ++ "nd"
  else if r = 3 then intToString r ++ "rd"
  else intToString r ++ "th"

/-- Numeric value of a digit string (Python `int` on an unsigned literal). -/
def digitsVal (cs : List Char) : Nat := cs.foldl (fun a c => a * 10 + charVal c) 0

/-- Embedding of Python `int()` on a string made of an optional minus sign
followed by digits — the only shapes produced by the slices in
`format_mbf_result`. -/
def pyInt (cs : List Char) : Int :=
  match cs with
  | c :: rest => if c == '-' then -(digitsVal rest : Int) else (digitsVal (c :: rest) : Int)
  | [] => (digitsVal [] : Int)

/-- Embedding of `format_mbf_result` (filter.py lines 93-103): pad `best` to
8 characters, slice off the first two, middle, and last two characters, and
render solved/attempted counts with the elapsed minutes and seconds. The
slice `[2:-2]` is `drop 2` then `take (length - 4)`, and `[-2:]` is
`drop (length - 2)`. -/
def format_mbf_result (best : Int) : String :=
  let bs := pad08Int best
  let total_points := pyInt (bs.take 2)
  let total_time_seconds := pyInt ((bs.drop 2).take (bs.length - 4))
  let missed_cubes := pyInt (bs.drop (bs.length - 2))
  let solved_cubes := 99 - total_points + missed_cubes
  let attempted_cubes := solved_cubes + missed_cubes
  let minutes := total_time_seconds / 60
  let seconds := total_time_seconds % 60
  ⟨intToChars solved_cubes ++ '/' :: (intToChars attempted_cubes ++ ' ' ::
    (intToChars minutes ++ ':' :: pad02Int seconds))⟩

/-- Embedding of `format_best_result` (filter.py lines 106-112): dispatch on
the event id. The fewest-moves branch renders the integer identically in
both of its arms, exactly as the source does. -/
def format_best_result (event_id : String) (best : Int) : String :=
  if event_id == "333mbf" then format_mbf_result best
  else if event_id == "333fm" then
    (if best < 100 then intToString best else intToString best)
  else format_time best

/-- Embedding of the `EVENT_DISPLAY_NAMES` table (filter.py lines 116-138). -/
def EVENT_DISPLAY_NAMES : List (String × String) :=
  [("333", "3x3"),
   ("222", "2x2"),
   ("444", "4x4"),
   ("555", "5x5"),
   ("666", "6x6"),
   ("777", "7x7"),
   ("333bf", "3x3 Blindfolded"),
   ("333fm", "3x3 Fewest Moves"),
   ("333oh", "3x3 One-Handed"),
   ("clock", "Clock"),
   ("minx", "Megaminx"),
   ("pyram", "Pyraminx"),
   ("skewb", "Skewb"),
   ("sq1", "Square-1"),
   ("444bf", "4x4 Blindfolded"),
   ("555bf", "5x5 Blindfolded"),
   ("333mbf", "3x3 Multi-Blind"),
   ("333mbo", "3x3 Multi-Blind Old Style"),
   ("magic", "Magic"),
   ("mmagic", "Master Magic"),
   ("333ft", "3x3 With Feet")]

/-- Embedding of `format_event_name` (filter.py lines 115-139): dictionary
get with the event id itself as the default. -/
def format_event_name (event_id : String) : String :=
  match EVENT_DISPLAY_NAMES.lookup event_id with
  | some n => n
  | none => event_id

/-- One row of the `results` input table (filter.py lines 11-17: the columns
loaded from WCA_export_Results with their dtypes). -/
structure ResultRecord where
  personId : String
  eventId : String
  personCountryId : String
  best : Int
  personName : String
deriving DecidableEq, Repr

/-- One row of the `ranks` input table (filter.py lines 18-23: the columns
loaded from WCA_export_RanksSingle; `countryRank` is a float column,
embedded as `ℚ`). -/
structure RankRecord where
  personId : String
  eventId : String
  countryRank : ℚ
  best : Int
deriving DecidableEq, Repr

/-- One row of the merged table: the left table's columns followed by the
right table's non-key column. -/
structure MergedRecord where
  personId : String
  eventId : String
  personCountryId : String
  best : Int
  personName : String
  countryRank : ℚ
deriving DecidableEq, Repr

/-- The join condition of `merge_data`: the `on` columns `personId`,
`eventId`, `best` must be equal. -/
def matchKeys (r : ResultRecord) (s : RankRecord) : Bool :=
  r.personId == s.personId && r.eventId == s.eventId && r.best == s.best

/-- The merged row built from a matching pair. -/
def combineRow (r : ResultRecord) (s : RankRecord) : MergedRecord :=
  ⟨r.personId, r.eventId, r.personCountryId, r.best, r.personName, s.countryRank⟩

/-- Embedding of `merge_data` (filter.py lines 58-65): the pandas inner merge
on `personId`, `eventId`, `best` — every matching pair of rows produces an
output row, left rows in order, each matched against the right rows in
order. -/
def merge_data (results : List ResultRecord) (ranks : List RankRecord) :
    List MergedRecord :=
  (results.map fun r => (ranks.filter (matchKeys r)).map (combineRow r)).flatten

/-- The (personId, eventId, best) key triple of a results row. -/
def keyOfResult (r : ResultRecord) : String × String × Int :=
  (r.personId, r.eventId, r.best)

/-- The (personId, eventId, best) key triple of a ranks row. -/
def keyOfRank (s : RankRecord) : String × String × Int :=
  (s.personId, s.eventId, s.best)

/-- The (personId, eventId, best) key triple of a merged row. -/
def keyOfMerged (m : MergedRecord) : String × String × Int :=
  (m.personId, m.eventId, m.best)

/-- The rank argument of `get_person_by_rank`: the literal string "lowest"
or an integer rank (the caller, filter.py lines 190-193, passes `int(text)`
when the text is not "lowest"). -/
inductive RankSpec where
  | lowest : RankSpec
  | num : Int → RankSpec
deriving DecidableEq, Repr

/-- The filter step of `get_person_by_rank` (filter.py line 144): rows whose
`eventId` and `personCountryId` equal the requested event and region. -/
def filteredRecords (merged : List MergedRecord) (event_id region : String) :
    List MergedRecord :=
  merged.filter fun r => r.eventId == event_id && r.personCountryId == region

/-- The rank-resolution step of `get_person_by_rank` (filter.py lines
145-146): "lowest" becomes the maximum of the `countryRank` column, which is
NaN (here `none`) when the column is empty; a numeric rank is itself. -/
def resolvedRank (filtered : List MergedRecord) : RankSpec → Option ℚ
  | RankSpec.lowest =>
      match filtered.map (fun r => r.countryRank) with
      | [] => none
      | x :: xs => some (xs.foldl max x)
  | RankSpec.num n => some ((n : ℚ))

/-- Embedding of `get_person_by_rank` (filter.py lines 142-149): filter by
event and region, resolve the rank, and return the first row whose
`countryRank` equals the resolved value, or `none`. A NaN resolved rank
(empty column maximum) compares unequal to every value, so that case yields
`none` just as the pandas comparison does. -/
def get_person_by_rank (merged : List MergedRecord) (event_id region : String)
    (rank_number : RankSpec) : Option MergedRecord :=
  let filtered := filteredRecords merged event_id region
  match resolvedRank filtered rank_number with
  | none => none
  | some q => filtered.find? fun r => r.countryRank == q

/-- Parse an unsigned decimal numeral: `some` of its value when the string
is non-empty and all digits, else `none`. -/
def parseNatStrict (cs : List Char) : Option Nat :=
  if cs.isEmpty then none
  else if cs.all isDigitChar then some (digitsVal cs) else none

/-- Parse a "seconds.fraction" character string into its two numeric
fields: split at the first '.', both sides must be non-empty digit runs. -/
def parseSecFrac (cs : List Char) : Option (Nat × Nat) :=
  match cs.dropWhile fun c => !(c == '.') with
  | d :: fr =>
    if d == '.' then do
      let s ← parseNatStrict (cs.takeWhile fun c => !(c == '.'))
      let f ← parseNatStrict fr
      pure (s, f)
    else none
  | [] => none

/-- Inverse parse of a `format_time` display string: recover the minutes
(0 when the minutes field is absent), seconds and centisecond fraction. -/
def parseTimeString (str : String) : Option (Nat × Nat × Nat) :=
  match str.data.dropWhile fun c => !(c == ':') with
  | d :: rest =>
    if d == ':' then do
      let m ← parseNatStrict (str.data.takeWhile fun c => !(c == ':'))
      let sf ← parseSecFrac rest
      pure (m, sf.1, sf.2)
    else do
      let sf ← parseSecFrac str.data
      pure (0, sf.1, sf.2)
  | [] => do
      let sf ← parseSecFrac str.data
      pure (0, sf.1, sf.2)

/-- The spec's description of the time formatter, written over `Nat` with
`divmod` as stated: minutes, remainder = divmod(centiseconds, 6000);
seconds, fractional = divmod(remainder, 100); minutes field shown only when
positive, seconds and fraction zero-padded to two digits (the seconds field
unpadded when the minutes field is absent). -/
def format_time_spec (c : Nat) : String :=
  let minutes := c / 6000
  let rem := c % 6000
  let seconds := rem / 100
  let fractional := rem % 100
  if 0 < minutes then
    ⟨natToDigits minutes ++ ':' :: (leftPad 2 (natToDigits seconds) ++
      '.' :: leftPad 2 (natToDigits fractional))⟩
  else
    ⟨natToDigits seconds ++ '.' :: leftPad 2 (natToDigits fractional)⟩

/-- The spec's description of the multi-blind decoder, written over `Nat`:
pad to at least 8 decimal digits, read the first two digits as the points
field, the digits from position 3 through length-2 as the seconds field,
the last two digits as the missed field, compute solved and attempted, and
render with divmod-by-60 minutes and zero-padded seconds. -/
def format_mbf_spec (best : Nat) : String :=
  let padded := leftPad 8 (natToDigits best)
  let points_digits := digitsVal (padded.take 2)
  let time_digits := digitsVal ((padded.drop 2).take (padded.length - 4))
  let missed_digits := digitsVal (padded.drop (padded.length - 2))
  let solved : Int := 99 - (points_digits : Int) + (missed_digits : Int)
  let attempted : Int := solved + (missed_digits : Int)
  let minutes := time_digits / 60
  let seconds := time_digits % 60
  ⟨intToChars solved ++ '/' :: (intToChars attempted ++ ' ' ::
    (natToDigits minutes ++ ':' :: leftPad 2 (natToDigits seconds)))⟩

/-- A results table whose two rows share one (personId, eventId, best)
triple. -/
def dupResults : List ResultRecord :=
  [⟨"2009ZEMD01", "333", "US", 600, "A"⟩,
   ⟨"2009ZEMD01", "333", "US", 600, "B"⟩]

/-- A ranks table whose two rows share the same (personId, eventId, best)
triple as `dupResults`. -/
def dupRanks : List RankRecord :=
  [⟨"2009ZEMD01", "333", 1, 600⟩,
   ⟨"2009ZEMD01", "333", 2, 600⟩]

/-- A small results table with pairwise distinct key triples. -/
def exResults : List ResultRecord :=
  [⟨"2009ZEMD01", "333", "US", 600, "A"⟩,
   ⟨"2010XYzz01", "333", "US", 700, "B"⟩,
   ⟨"2011ABcd01", "222", "CA", 300, "C"⟩]

/-- A small ranks table with pairwise distinct key triples; the first
`exResults` row has no rank partner. -/
def exRanks : List RankRecord :=
  [⟨"2010XYzz01", "333", 5, 700⟩,
   ⟨"2011ABcd01", "222", 2, 300⟩]

/-- A small merged table for the rank-query witnesses: three rows for event
"333" in region "US", with a tie at the maximal country rank 5. -/
def exMerged : List MergedRecord :=
  [⟨"2009ZEMD01", "333", "US", 600, "A", 2⟩,
   ⟨"2010XYzz01", "333", "US", 700, "B", 5⟩,
   ⟨"2012QRst01", "333", "US", 800, "C", 5⟩,
   ⟨"2013UVwx01", "222", "CA", 300, "D", 1⟩]

/-! ## Digit rendering lemmas -/

theorem natToDigitsAux_congr :
    ∀ n fuel fuel', n ≤ fuel → n ≤ fuel' →
      natToDigitsAux fuel n = natToDigitsAux fuel' n := by
  intro n
  induction n using Nat.strong_induction_on with
  | _ n ih =>
    intro fuel fuel' hf hf'
    match fuel, fuel' with
    | 0, 0 => rfl
    | 0, b + 1 =>
      interval_cases n
      rfl
    | a + 1, 0 =>
      interval_cases n
      rfl
    | a + 1, b + 1 =>
      rw [natToDigitsAux, natToDigitsAux]
      split
      · rfl
      · next h =>
        congr 1
        exact ih (n / 10) (Nat.div_lt_self (by omega) (by omega))
          a b (by omega) (by omega)

theorem natToDigits_unfold (n : Nat) :
    natToDigits n =
      if n < 10 then [digitChar n]
      else natToDigits (n / 10) ++ [digitChar (n % 10)] := by
  unfold natToDigits
  match n with
  | 0 => rfl
  | m + 1 =>
    rw [natToDigitsAux]
    split
    · rfl
    · next h =>
      congr 1
      exact natToDigitsAux_congr ((m + 1) / 10) m ((m + 1) / 10)
        (by omega) (by omega)

theorem natToDigits_ne_nil (n : Nat) : natToDigits n ≠ [] := by
  rw [natToDigits_unfold]
  split <;> simp

theorem isDigitChar_digitChar (d : Nat) (h : d < 10) :
    isDigitChar (digitChar d) = true := by
  interval_cases d <;> rfl

theorem charVal_digitChar (d : Nat) (h : d < 10) : charVal (digitChar d) = d := by
  interval_cases d <;> rfl

theorem natToDigits_all_digits (n : Nat) :
    ∀ c ∈ natToDigits n, isDigitChar c = true := by
  induction n using Nat.strong_induction_on with
  | _ n ih =>
    rw [natToDigits_unfold]
    split
    · next h =>
      intro c hc
      simp only [List.mem_singleton] at hc
      subst hc
      exact isDigitChar_digitChar n h
    · next h =>
      intro c hc
      rcases List.mem_append.mp hc with hc | hc
      · exact ih (n / 10) (Nat.div_lt_self (by omega) (by omega)) c hc
      · simp only [List.mem_singleton] at hc
        subst hc
        exact isDigitChar_digitChar (n % 10) (Nat.mod_lt _ (by omega))

theorem digitsVal_append_singleton (xs : List Char) (c : Char) :
    digitsVal (xs ++ [c]) = digitsVal xs * 10 + charVal c := by
  simp [digitsVal, List.foldl_append]

theorem digitsVal_natToDigits (n : Nat) : digitsVal (natToDigits n) = n := by
  induction n using Nat.strong_induction_on with
  | _ n ih =>
    rw [natToDigits_unfold]
    split
    · next h =>
      simp [digitsVal, charVal_digitChar n h]
    · next h =>
      rw [digitsVal_append_singleton,
        ih (n / 10) (Nat.div_lt_self (by omega) (by omega)),
        charVal_digitChar (n % 10) (Nat.mod_lt _ (by omega))]
      omega

theorem digitsVal_cons_zero (l : List Char) : digitsVal ('0' :: l) = digitsVal l := by
  simp [digitsVal, charVal]

theorem digitsVal_replicate_zero (k : Nat) (l : List Char) :
    digitsVal (List.replicate k '0' ++ l) = digitsVal l := by
  induction k with
  | zero => simp
  | succ k ih => rw [List.replicate_succ, List.cons_append, digitsVal_cons_zero, ih]

theorem digitsVal_leftPad (w : Nat) (l : List Char) :
    digitsVal (leftPad w l) = digitsVal l :=
  digitsVal_replicate_zero _ l

theorem leftPad_all_digits (w : Nat) (l : List Char)
    (h : ∀ c ∈ l, isDigitChar c = true) :
    ∀ c ∈ leftPad w l, isDigitChar c = true := by
  intro c hc
  rcases List.mem_append.mp hc with hc | hc
  · rw [List.eq_of_mem_replicate hc]
    rfl
  · exact h c hc

theorem leftPad_ne_nil (w : Nat) (l : List Char) (h : l ≠ []) :
    leftPad w l ≠ [] := by
  simp [leftPad, h]

/-! ## Parsing lemmas -/

theorem parseNatStrict_of_digits (cs : List Char) (h1 : cs ≠ [])
    (h2 : ∀ c ∈ cs, isDigitChar c = true) :
    parseNatStrict cs = some (digitsVal cs) := by
  unfold parseNatStrict
  rw [if_neg (by simp [h1]), if_pos (List.all_eq_true.mpr h2)]

theorem parseNatStrict_natToDigits (n : Nat) :
    parseNatStrict (natToDigits n) = some n := by
  rw [parseNatStrict_of_digits _ (natToDigits_ne_nil n) (natToDigits_all_digits n),
    digitsVal_natToDigits]

theorem parseNatStrict_leftPad_natToDigits (w n : Nat) :
    parseNatStrict (leftPad w (natToDigits n)) = some n := by
  rw [parseNatStrict_of_digits _
      (leftPad_ne_nil w _ (natToDigits_ne_nil n))
      (leftPad_all_digits w _ (natToDigits_all_digits n)),
    digitsVal_leftPad, digitsVal_natToDigits]

theorem digit_ne_colon {c : Char} (h : isDigitChar c = true) : c ≠ ':' := by
  intro hc
  subst hc
  exact absurd h (by decide)

theorem digit_ne_dot {c : Char} (h : isDigitChar c = true) : c ≠ '.' := by
  intro hc
  subst hc
  exact absurd h (by decide)

theorem digit_ne_dash {c : Char} (h : isDigitChar c = true) : c ≠ '-' := by
  intro hc
  subst hc
  exact absurd h (by decide)

theorem takeWhile_append_cons (p : Char → Bool) (xs : List Char) (y : Char)
    (ys : List Char) (hx : ∀ x ∈ xs, p x = true) (hy : p y = false) :
    (xs ++ y :: ys).takeWhile p = xs := by
  induction xs with
  | nil => simp [List.takeWhile_cons, hy]
  | cons a as ih =>
    have ha : p a = true := hx a (by simp)
    simp only [List.cons_append, List.takeWhile_cons, ha, if_true]
    rw [ih fun x hx' => hx x (by simp [hx'])]

theorem dropWhile_append_cons (p : Char → Bool) (xs : List Char) (y : Char)
    (ys : List Char) (hx : ∀ x ∈ xs, p x = true) (hy : p y = false) :
    (xs ++ y :: ys).dropWhile p = y :: ys := by
  induction xs with
  | nil => simp [List.dropWhile_cons, hy]
  | cons a as ih =>
    have ha : p a = true := hx a (by simp)
    simp only [List.cons_append, List.dropWhile_cons, ha, if_true]
    exact ih fun x hx' => hx x (by simp [hx'])

theorem takeWhile_of_all (p : Char → Bool) (xs : List Char)
    (hx : ∀ x ∈ xs, p x = true) : xs.takeWhile p = xs := by
  induction xs with
  | nil => rfl
  | cons a as ih =>
    have ha : p a = true := hx a (by simp)
    simp only [List.takeWhile_cons, ha, if_true]
    rw [ih fun x hx' => hx x (by simp [hx'])]

theorem dropWhile_of_all (p : Char → Bool) (xs : List Char)
    (hx : ∀ x ∈ xs, p x = true) : xs.dropWhile p = [] := by
  induction xs with
  | nil => rfl
  | cons a as ih =>
    have ha : p a = true := hx a (by simp)
    simp only [List.dropWhile_cons, ha, if_true]
    exact ih fun x hx' => hx x (by simp [hx'])

/-! ## Int-to-Nat bridging lemmas -/

theorem intToChars_ofNat (n : Nat) : intToChars (n : Int) = natToDigits n := by
  rw [intToChars, if_neg (by omega)]
  simp

theorem pad02Int_ofNat (n : Nat) : pad02Int (n : Int) = leftPad 2 (natToDigits n) := by
  rw [pad02Int, if_neg (by omega)]
  simp

theorem pad08Int_ofNat (n : Nat) : pad08Int (n : Int) = leftPad 8 (natToDigits n) := by
  rw [pad08Int, if_neg (by omega)]
  simp

theorem format_time_ofNat (c : Nat) : format_time (c : Int) = format_time_spec c := by
  have e1 : (c : Int) / 6000 = ((c / 6000 : Nat) : Int) := rfl
  have e2 : ((c : Int) % 6000) / 100 = ((c % 6000 / 100 : Nat) : Int) := rfl
  have e3 : ((c : Int) % 6000) % 100 = ((c % 6000 % 100 : Nat) : Int) := rfl
  rw [format_time, format_time_spec]
  simp only [e1, e2, e3, intToChars_ofNat, pad02Int_ofNat, Int.natCast_pos]

/-! ## Round-trip lemmas for the time parser -/

theorem parseSecFrac_split (secChars frChars : List Char)
    (hsd : ∀ c ∈ secChars, isDigitChar c = true) (hsn : secChars ≠ [])
    (hfd : ∀ c ∈ frChars, isDigitChar c = true) (hfn : frChars ≠ []) :
    parseSecFrac (secChars ++ '.' :: frChars) =
      some (digitsVal secChars, digitsVal frChars) := by
  unfold parseSecFrac
  have hp : ∀ x ∈ secChars, (!(x == '.')) = true := by
    intro x hx
    simp [digit_ne_dot (hsd x hx)]
  rw [takeWhile_append_cons _ _ _ _ hp (by decide),
    dropWhile_append_cons _ _ _ _ hp (by decide)]
  simp [parseNatStrict_of_digits _ hsn hsd, parseNatStrict_of_digits _ hfn hfd]

theorem parseTime_format_time (n : Nat) :
    parseTimeString (format_time (n : Int)) =
      some (n / 6000, n % 6000 / 100, n % 100) := by
  rw [format_time_ofNat]
  have hf : n % 6000 % 100 = n % 100 := Nat.mod_mod_of_dvd n (by norm_num)
  have hsd := natToDigits_all_digits (n % 6000 / 100)
  have hsn := natToDigits_ne_nil (n % 6000 / 100)
  have hfd := leftPad_all_digits 2 _ (natToDigits_all_digits (n % 6000 % 100))
  have hfn := leftPad_ne_nil 2 _ (natToDigits_ne_nil (n % 6000 % 100))
  rw [format_time_spec]
  by_cases hm : 0 < n / 6000
  · rw [if_pos hm]
    unfold parseTimeString
    have hmind : ∀ x ∈ natToDigits (n / 6000), (!(x == ':')) = true := by
      intro x hx
      simp [digit_ne_colon (natToDigits_all_digits _ x hx)]
    rw [show (String.mk (natToDigits (n / 6000) ++ ':' ::
        (leftPad 2 (natToDigits (n % 6000 / 100)) ++
          '.' :: leftPad 2 (natToDigits (n % 6000 % 100))))).data =
        natToDigits (n / 6000) ++ ':' ::
        (leftPad 2 (natToDigits (n % 6000 / 100)) ++
          '.' :: leftPad 2 (natToDigits (n % 6000 % 100))) from rfl,
      takeWhile_append_cons _ _ _ _ hmind (by decide),
      dropWhile_append_cons _ _ _ _ hmind (by decide)]
    have hsplit := parseSecFrac_split
      (leftPad 2 (natToDigits (n % 6000 / 100)))
      (leftPad 2 (natToDigits (n % 6000 % 100)))
      (leftPad_all_digits 2 _ hsd) (leftPad_ne_nil 2 _ hsn) hfd hfn
    rw [digitsVal_leftPad, digitsVal_leftPad, digitsVal_natToDigits,
      digitsVal_natToDigits] at hsplit
    simp [hsplit, parseNatStrict_natToDigits]
    omega
  · rw [if_neg hm]
    unfold parseTimeString
    have hall : ∀ x ∈ natToDigits (n % 6000 / 100) ++
        '.' :: leftPad 2 (natToDigits (n % 6000 % 100)), (!(x == ':')) = true := by
      intro x hx
      rcases List.mem_append.mp hx with hx | hx
      · simp [digit_ne_colon (hsd x hx)]
      · rcases List.mem_cons.mp hx with hx | hx
        · subst hx
          decide
        · simp [digit_ne_colon (hfd x hx)]
    rw [show (String.mk (natToDigits (n % 6000 / 100) ++
        '.' :: leftPad 2 (natToDigits (n % 6000 % 100)))).data =
        natToDigits (n % 6000 / 100) ++
        '.' :: leftPad 2 (natToDigits (n % 6000 % 100)) from rfl,
      dropWhile_of_all _ _ hall]
    have hsplit := parseSecFrac_split
      (natToDigits (n % 6000 / 100))
      (leftPad 2 (natToDigits (n % 6000 % 100)))
      hsd hsn hfd hfn
    rw [digitsVal_leftPad, digitsVal_natToDigits, digitsVal_natToDigits] at hsplit
    simp [hsplit]
    omega

/-! ## Multi-blind decoder bridging lemmas -/

theorem pyInt_of_digits (cs : List Char)
    (h : ∀ c ∈ cs, isDigitChar c = true) :
    pyInt cs = ((digitsVal cs : Nat) : Int) := by
  match cs with
  | [] => rfl
  | c :: rest =>
    have hc : (c == '-') = false :=
      beq_eq_false_iff_ne.mpr (digit_ne_dash (h c (by simp)))
    rw [pyInt, if_neg (by simp [hc])]

theorem format_mbf_ofNat (best : Nat) :
    format_mbf_result (best : Int) = format_mbf_spec best := by
  have hdig : ∀ c ∈ leftPad 8 (natToDigits best), isDigitChar c = true :=
    leftPad_all_digits 8 _ (natToDigits_all_digits best)
  have h1 := pyInt_of_digits ((leftPad 8 (natToDigits best)).take 2)
    fun c hc => hdig c (List.take_subset _ _ hc)
  have h2 := pyInt_of_digits
    (((leftPad 8 (natToDigits best)).drop 2).take ((leftPad 8 (natToDigits best)).length - 4))
    fun c hc => hdig c (List.drop_subset _ _ (List.take_subset _ _ hc))
  have h3 := pyInt_of_digits
    ((leftPad 8 (natToDigits best)).drop ((leftPad 8 (natToDigits best)).length - 2))
    fun c hc => hdig c (List.drop_subset _ _ hc)
  simp only [format_mbf_result, format_mbf_spec, pad08Int_ofNat, h1, h2, h3]
  simp only [show ∀ a : Nat, ((a : Int)) / 60 = ((a / 60 : Nat) : Int) from fun _ => rfl,
    show ∀ a : Nat, ((a : Int)) % 60 = ((a % 60 : Nat) : Int) from fun _ => rfl,
    intToChars_ofNat, pad02Int_ofNat]

/-! ## Column maximum and first-match lemmas -/

theorem le_foldl_max (x : ℚ) (xs : List ℚ) :
    x ≤ xs.foldl max x ∧ ∀ y ∈ xs, y ≤ xs.foldl max x := by
  induction xs generalizing x with
  | nil => simp
  | cons a as ih =>
    refine ⟨le_trans (le_max_left x a) (ih (max x a)).1, ?_⟩
    intro y hy
    rcases List.mem_cons.mp hy with rfl | hy
    · exact le_trans (le_max_right x y) (ih (max x y)).1
    · exact (ih (max x a)).2 y hy

theorem foldl_max_mem (x : ℚ) (xs : List ℚ) :
    xs.foldl max x = x ∨ xs.foldl max x ∈ xs := by
  induction xs generalizing x with
  | nil => simp
  | cons a as ih =>
    rw [List.foldl_cons]
    rcases ih (max x a) with h | h
    · rcases max_choice x a with hm | hm
      · left
        rw [h, hm]
      · right
        rw [h, hm]
        exact List.mem_cons_self a as
    · right
      exact List.mem_cons_of_mem a h

theorem find?_split {α : Type} (p : α → Bool) (l : List α) (a : α)
    (h : l.find? p = some a) :
    ∃ pre post, l = pre ++ a :: post ∧ p a = true ∧ ∀ x ∈ pre, p x = false := by
  induction l with
  | nil => simp [List.find?] at h
  | cons b bs ih =>
    by_cases hb : p b = true
    · rw [List.find?_cons_of_pos _ hb, Option.some_inj] at h
      subst h
      exact ⟨[], bs, rfl, hb, by simp⟩
    · rw [List.find?_cons_of_neg _ (by simpa using hb)] at h
      obtain ⟨pre, post, hl, hpa, hpre⟩ := ih h
      refine ⟨b :: pre, post, by rw [hl, List.cons_append], hpa, ?_⟩
      intro x hx
      rcases List.mem_cons.mp hx with rfl | hx
      · simpa using hb
      · exact hpre x hx

/-! ## Join lemmas -/

theorem matchKeys_iff (r : ResultRecord) (s : RankRecord) :
    matchKeys r s = true ↔ keyOfResult r = keyOfRank s := by
  simp [matchKeys, keyOfResult, keyOfRank, Prod.ext_iff, and_assoc]

theorem merge_data_length (results : List ResultRecord) (ranks : List RankRecord) :
    (merge_data results ranks).length =
      (results.map fun r => (ranks.filter (matchKeys r)).length).sum := by
  rw [merge_data, List.length_flatten, List.map_map]
  congr 1
  exact List.map_congr_left fun r _ => by simp [Function.comp]

theorem filter_matchKeys_le_one (ranks : List RankRecord)
    (h : (ranks.map keyOfRank).Nodup) (r : ResultRecord) :
    (ranks.filter (matchKeys r)).length ≤ 1 := by
  induction ranks with
  | nil => simp
  | cons s ss ih =>
    rw [List.map_cons, List.nodup_cons] at h
    rw [List.filter_cons]
    split
    · next hs =>
      have hnil : ss.filter (matchKeys r) = [] := by
        rw [List.filter_eq_nil_iff]
        intro s' hs' hmatch
        have h1 := (matchKeys_iff r s').mp hmatch
        have h2 := (matchKeys_iff r s).mp hs
        exact h.1 (List.mem_map.mpr ⟨s', hs', by rw [← h1, ← h2]⟩)
      rw [hnil]
      simp
    · exact ih h.2

theorem sum_map_le_length {α : Type} (l : List α) (f : α → Nat)
    (h : ∀ a ∈ l, f a ≤ 1) : (l.map f).sum ≤ l.length := by
  induction l with
  | nil => simp
  | cons a as ih =>
    rw [List.map_cons, List.sum_cons, List.length_cons]
    have h1 := h a (by simp)
    have h2 := ih fun x hx => h x (by simp [hx])
    omega

theorem length_filter_partition {α : Type} (p : α → Bool) (l : List α) :
    (l.filter p).length + (l.filter fun a => !p a).length = l.length := by
  induction l with
  | nil => rfl
  | cons a as ih =>
    rw [List.filter_cons, List.filter_cons]
    cases ha : p a <;> simp [ha] <;> omega

theorem filter_sub_filter {α : Type} (p q : α → Bool) (l : List α)
    (h : ∀ a ∈ l, p a = true → q a = true) :
    l.filter p = (l.filter q).filter p := by
  induction l with
  | nil => rfl
  | cons a as ih =>
    have ih' := ih fun x hx => h x (List.mem_cons_of_mem a hx)
    rw [List.filter_cons, List.filter_cons]
    by_cases hp : p a = true
    · have hq := h a (List.mem_cons_self a as) hp
      rw [if_pos hp, if_pos hq, List.filter_cons, if_pos hp, ih']
    · rw [if_neg hp]
      by_cases hq : q a = true
      · rw [if_pos hq, List.filter_cons, if_neg hp, ih']
      · rw [if_neg hq, ih']

theorem sum_filter_lengths_le (results : List ResultRecord) :
    ∀ ranks : List RankRecord, (results.map keyOfResult).Nodup →
      (results.map fun r => (ranks.filter (matchKeys r)).length).sum ≤ ranks.length := by
  induction results with
  | nil =>
    intro ranks _
    simp
  | cons r rs ih =>
    intro ranks h
    rw [List.map_cons, List.nodup_cons] at h
    rw [List.map_cons, List.sum_cons]
    have hsub : ∀ r' ∈ rs, ranks.filter (matchKeys r') =
        (ranks.filter fun s => !(matchKeys r s)).filter (matchKeys r') := by
      intro r' hr'
      apply filter_sub_filter
      intro s _ hmatch
      by_contra hcon
      simp at hcon
      have h1 := (matchKeys_iff r' s).mp hmatch
      have h2 := (matchKeys_iff r s).mp hcon
      exact h.1 (List.mem_map.mpr ⟨r', hr', h1.trans h2.symm⟩)
    have hsum : (rs.map fun r' => (ranks.filter (matchKeys r')).length).sum =
        (rs.map fun r' =>
          (((ranks.filter fun s => !(matchKeys r s)).filter (matchKeys r'))).length).sum := by
      congr 1
      exact List.map_congr_left fun r' hr' => by rw [hsub r' hr']
    have hih := ih (ranks.filter fun s => !(matchKeys r s)) h.2
    have hpart := length_filter_partition (matchKeys r) ranks
    omega

/-! ## Claim theorems -/

/-- C6: for every non-negative integer centiseconds, `format_time` computes
(minutes, remainder) = divmod(centiseconds, 6000) and (seconds, fractional)
= divmod(remainder, 100), returning "minutes:seconds.fractional" with
two-digit zero-padded seconds and fraction when minutes > 0 and
"seconds.fractional" otherwise; in particular format_time 6105 = "1:01.05"
and format_time 305 = "3.05". -/
theorem format_time_divmod_display :
    (∀ c : Nat, format_time (c : Int) = format_time_spec c) ∧
    format_time 6105 = "1:01.05" ∧ format_time 305 = "3.05" :=
  ⟨format_time_ofNat, by decide, by decide⟩

/-- C9: parsing the display string of `format_time` back into minutes,
seconds and fraction recovers exactly (best / 6000, best % 6000 / 100,
best % 100) for every non-negative integer best. -/
theorem format_time_parse_roundtrip :
    ∀ n : Nat, parseTimeString (format_time (n : Int)) =
      some (n / 6000, n % 6000 / 100, n % 100) :=
  parseTime_format_time

/-- C3: for every non-negative integer best, `format_mbf_result` pads best
to at least 8 decimal digits, reads the first 2 digits as points, the
digits from position 3 through length-2 as seconds, the last 2 digits as
missed, computes solved = 99 - points + missed and attempted = solved +
missed, and renders "solved/attempted minutes:seconds" with divmod-by-60
and two-digit zero-padded seconds; in particular
format_mbf_result 3083703 = "99/102 13:57". -/
theorem format_mbf_digit_slicing :
    (∀ best : Nat, format_mbf_result (best : Int) = format_mbf_spec best) ∧
    format_mbf_result 3083703 = "99/102 13:57" :=
  ⟨format_mbf_ofNat, by decide⟩

/-- C5: `format_rank` truncates its argument to an integer and chooses the
suffix only by equality of that integer with 1, 2 or 3, every other value
receiving "th"; in particular format_rank 1 = "1st", format_rank 2 = "2nd",
format_rank 3 = "3rd", format_rank 4 = "4th", format_rank 11 = "11th" and
format_rank 21 = "21th". -/
theorem format_rank_suffix_by_equality :
    (∀ rank : ℚ, ratTrunc rank ≠ 1 → ratTrunc rank ≠ 2 → ratTrunc rank ≠ 3 →
      format_rank rank = intToString (ratTrunc rank) ++ "th") ∧
    format_rank 1 = "1st" ∧ format_rank 2 = "2nd" ∧ format_rank 3 = "3rd" ∧
    format_rank 4 = "4th" ∧ format_rank 11 = "11th" ∧ format_rank 21 = "21th" := by
  refine ⟨?_, by decide, by decide, by decide, by decide, by decide, by decide⟩
  intro rank h1 h2 h3
  simp [format_rank, h1, h2, h3]

/-- Witness for the hypothesis-bearing part of C5's theorem: rank 100 gets
the suffix "th". -/
theorem format_rank_suffix_by_equality_witness :
    (ratTrunc 100 ≠ 1 ∧ ratTrunc 100 ≠ 2 ∧ ratTrunc 100 ≠ 3) ∧
    format_rank 100 = intToString (ratTrunc 100) ++ "th" :=
  ⟨by decide,
    format_rank_suffix_by_equality.1 100 (by decide) (by decide) (by decide)⟩

/-- C10: only the event code "333mbf" selects the packed multi-blind
decoder, so `format_best_result` renders best for the old-style multi-blind
event "333mbo" as centiseconds via `format_time`, although "333mbo" is a
known code in the display-name table. -/
theorem format_best_result_mbo_as_time :
    (∀ best : Int, format_best_result "333mbo" best = format_time best) ∧
    format_event_name "333mbo" = "3x3 Multi-Blind Old Style" :=
  ⟨fun _ => rfl, by decide⟩

/-- C7 counterexample: at event "333" with best = -5 the code silently
produces the display string "59.95" instead of failing with a DecodeError:
there is no validation or error path in `format_best_result`. -/
theorem format_best_result_decode_counterexample :
    format_best_result "333" (-5) = "59.95" := by decide

/-- C7 (amended): for negative best, `format_best_result` does not fail; on
a time-based event it silently returns the string produced by Python's
floor-division divmod, whose minutes quotient is negative, so the rendered
string shows only the (non-negative) remainder fields. -/
theorem format_best_result_negative_silent :
    ∀ b : Int, b < 0 →
      format_best_result "333" b =
        ⟨intToChars ((b % 6000) / 100) ++ '.' :: pad02Int ((b % 6000) % 100)⟩ := by
  intro b hb
  have h1 : format_best_result "333" b = format_time b := rfl
  have h2 : format_time b =
      if 0 < b / 6000 then
        ⟨intToChars (b / 6000) ++ ':' ::
          (pad02Int ((b % 6000) / 100) ++ '.' :: pad02Int ((b % 6000) % 100))⟩
      else ⟨intToChars ((b % 6000) / 100) ++ '.' :: pad02Int ((b % 6000) % 100)⟩ := rfl
  rw [h1, h2, if_neg (by omega)]

/-- Witness for C7's amended theorem at best = -5. -/
theorem format_best_result_negative_silent_witness :
    ((-5 : Int) < 0) ∧
    format_best_result "333" (-5) =
      ⟨intToChars (((-5 : Int) % 6000) / 100) ++
        '.' :: pad02Int (((-5 : Int) % 6000) % 100)⟩ :=
  ⟨by decide, format_best_result_negative_silent (-5) (by decide)⟩

/-- C1 counterexample: when the two rows of each input share one key
triple, the inner merge yields 4 rows, exceeding min(2, 2): the pandas
inner join produces the cross product of matching rows, so the claimed
bound fails without a key-uniqueness hypothesis. -/
theorem merge_data_min_bound_counterexample :
    (merge_data dupResults dupRanks).length = 4 ∧
    ¬((merge_data dupResults dupRanks).length ≤
        min dupResults.length dupRanks.length) := by decide

/-- C1 (amended): when the (personId, eventId, best) key triples are
pairwise distinct within each input table, the number of records returned
by `merge_data` is at most min(|results|, |ranks|). -/
theorem merge_data_size_bound_of_unique_keys :
    ∀ (results : List ResultRecord) (ranks : List RankRecord),
      (results.map keyOfResult).Nodup → (ranks.map keyOfRank).Nodup →
      (merge_data results ranks).length ≤ min results.length ranks.length := by
  intro results ranks hres hrank
  rw [merge_data_length]
  refine le_min ?_ ?_
  · exact sum_map_le_length results _ fun r _ => filter_matchKeys_le_one ranks hrank r
  · exact sum_filter_lengths_le results ranks hres

/-- Witness for C1's amended theorem on concrete duplicate-free tables. -/
theorem merge_data_size_bound_of_unique_keys_witness :
    ((exResults.map keyOfResult).Nodup ∧ (exRanks.map keyOfRank).Nodup) ∧
    (merge_data exResults exRanks).length ≤ min exResults.length exRanks.length :=
  ⟨by decide,
    merge_data_size_bound_of_unique_keys exResults exRanks (by decide) (by decide)⟩

/-- C8: every record output by `merge_data` carries a (personId, eventId,
best) triple that occurs identically in some row of the results input and
in some row of the ranks input. -/
theorem merge_data_triple_in_both :
    ∀ (results : List ResultRecord) (ranks : List RankRecord) (m : MergedRecord),
      m ∈ merge_data results ranks →
      (∃ r ∈ results, keyOfResult r = keyOfMerged m) ∧
      (∃ s ∈ ranks, keyOfRank s = keyOfMerged m) := by
  intro results ranks m hm
  rw [merge_data, List.mem_flatten] at hm
  obtain ⟨l, hl, hml⟩ := hm
  rw [List.mem_map] at hl
  obtain ⟨r, hr, rfl⟩ := hl
  rw [List.mem_map] at hml
  obtain ⟨s, hs, rfl⟩ := hml
  rw [List.mem_filter] at hs
  have hkey := (matchKeys_iff r s).mp hs.2
  exact ⟨⟨r, hr, rfl⟩, ⟨s, hs.1, hkey.symm⟩⟩

/-- Witness for C8's theorem: the merged row built from the matching pair
in the concrete tables. -/
theorem merge_data_triple_in_both_witness :
    ((⟨"2010XYzz01", "333", "US", 700, "B", 5⟩ : MergedRecord) ∈
      merge_data exResults exRanks) ∧
    ((∃ r ∈ exResults,
        keyOfResult r = keyOfMerged ⟨"2010XYzz01", "333", "US", 700, "B", 5⟩) ∧
      (∃ s ∈ exRanks,
        keyOfRank s = keyOfMerged ⟨"2010XYzz01", "333", "US", 700, "B", 5⟩)) :=
  ⟨by decide, merge_data_triple_in_both exResults exRanks _ (by decide)⟩

/-- C2: with rankSpec "lowest" and a non-empty filtered subset (exact
eventId and personCountryId match), `get_person_by_rank` resolves the rank
to the maximum countryRank value of the subset and returns the first record
in iteration order carrying that value (ties collapse to the
first-encountered record). -/
theorem get_person_by_rank_lowest_first_max :
    ∀ (merged : List MergedRecord) (event_id region : String),
      filteredRecords merged event_id region ≠ [] →
      ∃ m : ℚ,
        resolvedRank (filteredRecords merged event_id region) RankSpec.lowest =
          some m ∧
        (∃ r ∈ filteredRecords merged event_id region, r.countryRank = m) ∧
        (∀ r ∈ filteredRecords merged event_id region, r.countryRank ≤ m) ∧
        ∃ pre r post,
          filteredRecords merged event_id region = pre ++ r :: post ∧
          r.countryRank = m ∧
          (∀ x ∈ pre, x.countryRank ≠ m) ∧
          get_person_by_rank merged event_id region RankSpec.lowest = some r := by
  intro merged event_id region hne
  obtain ⟨f0, fs, hcons⟩ := List.exists_cons_of_ne_nil hne
  have hmapcons : (filteredRecords merged event_id region).map
      (fun r => r.countryRank) =
      f0.countryRank :: fs.map (fun r => r.countryRank) := by
    rw [hcons, List.map_cons]
  have hres : resolvedRank (filteredRecords merged event_id region)
      RankSpec.lowest =
      some ((fs.map fun r => r.countryRank).foldl max f0.countryRank) := by
    simp only [resolvedRank, hmapcons]
  have hmax := le_foldl_max f0.countryRank (fs.map fun r => r.countryRank)
  have hmem : (fs.map fun r => r.countryRank).foldl max f0.countryRank ∈
      (filteredRecords merged event_id region).map (fun r => r.countryRank) := by
    rw [hmapcons]
    rcases foldl_max_mem f0.countryRank (fs.map fun r => r.countryRank) with h | h
    · rw [h]
      exact List.mem_cons_self _ _
    · exact List.mem_cons_of_mem _ h
  obtain ⟨r0, hr0mem, hr0⟩ := List.mem_map.mp hmem
  have hsome : ((filteredRecords merged event_id region).find? fun r =>
      r.countryRank == (fs.map fun r => r.countryRank).foldl max
        f0.countryRank).isSome :=
    List.find?_isSome.mpr ⟨r0, hr0mem, by rw [beq_iff_eq]; exact hr0⟩
  obtain ⟨a, ha⟩ := Option.isSome_iff_exists.mp hsome
  obtain ⟨pre, post, hsplit, hpa, hpre⟩ := find?_split _ _ _ ha
  refine ⟨(fs.map fun r => r.countryRank).foldl max f0.countryRank,
    hres, ⟨r0, hr0mem, hr0⟩, ?_, pre, a, post, hsplit, beq_iff_eq.mp hpa, ?_, ?_⟩
  · intro r hr
    have hmem2 : r.countryRank ∈ (filteredRecords merged event_id region).map
        (fun r => r.countryRank) := List.mem_map_of_mem _ hr
    rw [hmapcons] at hmem2
    rcases List.mem_cons.mp hmem2 with h | h
    · rw [h]
      exact hmax.1
    · exact hmax.2 _ h
  · intro x hx
    exact beq_eq_false_iff_ne.mp (hpre x hx)
  · have hunfold : get_person_by_rank merged event_id region RankSpec.lowest =
        match resolvedRank (filteredRecords merged event_id region)
          RankSpec.lowest with
        | none => none
        | some q => (filteredRecords merged event_id region).find? fun r =>
            r.countryRank == q := rfl
    rw [hunfold, hres]
    exact ha

/-- Witness for C2's theorem on the concrete merged table with a tie at the
maximal rank 5. -/
theorem get_person_by_rank_lowest_first_max_witness :
    (filteredRecords exMerged "333" "US" ≠ []) ∧
    ∃ m : ℚ,
      resolvedRank (filteredRecords exMerged "333" "US") RankSpec.lowest =
        some m ∧
      (∃ r ∈ filteredRecords exMerged "333" "US", r.countryRank = m) ∧
      (∀ r ∈ filteredRecords exMerged "333" "US", r.countryRank ≤ m) ∧
      ∃ pre r post,
        filteredRecords exMerged "333" "US" = pre ++ r :: post ∧
        r.countryRank = m ∧
        (∀ x ∈ pre, x.countryRank ≠ m) ∧
        get_person_by_rank exMerged "333" "US" RankSpec.lowest = some r :=
  ⟨by decide, get_person_by_rank_lowest_first_max exMerged "333" "US" (by decide)⟩

/-- C4: when no record of the filtered subset carries the resolved rank
value — in particular whenever the filtered subset is empty, for "lowest"
as well as numeric rank specifications — `get_person_by_rank` returns
`none` as a normal value. -/
theorem get_person_by_rank_notfound :
    ∀ (merged : List MergedRecord) (event_id region : String) (spec : RankSpec),
      ((∀ r ∈ filteredRecords merged event_id region,
          some r.countryRank ≠
            resolvedRank (filteredRecords merged event_id region) spec) →
        get_person_by_rank merged event_id region spec = none) ∧
      (filteredRecords merged event_id region = [] →
        get_person_by_rank merged event_id region spec = none) := by
  intro merged event_id region spec
  have hunfold : get_person_by_rank merged event_id region spec =
      match resolvedRank (filteredRecords merged event_id region) spec with
      | none => none
      | some q => (filteredRecords merged event_id region).find? fun r =>
          r.countryRank == q := rfl
  constructor
  · intro h
    rw [hunfold]
    cases hresv : resolvedRank (filteredRecords merged event_id region) spec with
    | none => rfl
    | some q =>
      simp only [List.find?_eq_none, beq_iff_eq]
      intro x hx hxq
      exact h x hx (by rw [hresv, hxq])
  · intro h
    rw [hunfold, h]
    cases spec with
    | lowest => rfl
    | num n => rfl

/-- Witness for C4's theorem: an unmatched numeric rank on a non-empty
subset, and "lowest" on an empty subset, both return `none`. -/
theorem get_person_by_rank_notfound_witness :
    ((∀ r ∈ filteredRecords exMerged "333" "US",
        some r.countryRank ≠
          resolvedRank (filteredRecords exMerged "333" "US") (RankSpec.num 7)) ∧
      get_person_by_rank exMerged "333" "US" (RankSpec.num 7) = none) ∧
    (filteredRecords exMerged "555" "FR" = [] ∧
      get_person_by_rank exMerged "555" "FR" RankSpec.lowest = none) :=
  ⟨⟨by decide,
      (get_person_by_rank_notfound exMerged "333" "US" (RankSpec.num 7)).1
        (by decide)⟩,
    ⟨by decide,
      (get_person_by_rank_notfound exMerged "555" "FR" RankSpec.lowest).2
        (by decide)⟩⟩

